import Mathlib

/-!
Shallow embedding of the credential lifecycle and rotation engine of the
Macide repository: the account data model (`src/macide/auth/provider.ts`),
the vault (`src/macide/auth/vault.ts`), the account registry
(`AccountManager`, `src/macide/accounts/manager.ts`), the rotation engine
(`AccountRotator`, `src/macide/auth/rotator.ts`), the usage tracker
(`AccountTracker`, `src/macide/accounts/tracker.ts`) and the device-flow
polling loop (`OAuthFlow.authorize`, `src/macide/auth/oauthFlow.ts`).

TypeScript objects are embedded as immutable records; in-place mutation of
an account object that is aliased into the manager's `_accounts` array is
embedded as rewriting the list entry carrying the same `id` (call sites in
the repository always pass objects obtained from `getAll()`/`getActive()`,
so the entry and the argument are the same object).
-/

namespace Macide

/-- Account status, from the `status` field of `MacideAccount`
(`'healthy' | 'warning' | 'exhausted' | 'idle'`). -/
inductive AccountStatus where
  | healthy
  | warning
  | exhausted
  | idle
deriving DecidableEq, Repr

/-- The `MacideAccount` record (`src/macide/auth/provider.ts`), restricted to
the fields that the verified operations read or write (`id`, `requestCount`,
`requestCountDate`, `status`, `lastUsedAt`).  The identity and token fields
(`alias`, `githubId`, `githubUsername`, `avatarUrl`, `token`, `refreshToken`,
`scopes`, `addedAt`) are carried opaquely by the source operations modelled
here and are omitted.  Timestamps and ISO date strings are kept as `String`,
exactly as in the source, which only ever compares them for equality. -/
structure MacideAccount where
  id : String
  requestCount : Nat
  requestCountDate : String
  status : AccountStatus
  lastUsedAt : String
deriving DecidableEq, Repr

/-- Vault `upsertAccount` on the stored array (`vault.ts` lines 35-44):
`findIndex` on `id`, replace the first match in place, else push. -/
def upsertList (a : MacideAccount) : List MacideAccount → List MacideAccount
  | [] => [a]
  | b :: rest => if b.id == a.id then a :: rest else b :: upsertList a rest

/-- State of the `AccountManager` (`manager.ts`): the in-memory `_accounts`
array, the `_activeId` pointer, plus the two durable stores it mirrors to:
the vault contents (`context.secrets` under `macide.github.accounts`) and the
persisted active id (`globalState` key `macide.activeAccountId`). -/
structure ManagerState where
  accounts : List MacideAccount
  activeId : Option String
  vault : List MacideAccount
  storedActiveId : Option String
deriving DecidableEq, Repr

/-- `AccountManager.getActive` (`manager.ts` lines 40-42). -/
def getActive (s : ManagerState) : Option MacideAccount :=
  match s.activeId with
  | none => none
  | some i => s.accounts.find? (fun a => a.id == i)

/-- `AccountManager.load` (`manager.ts` lines 26-34): hydrate `_accounts`
from the vault; restore the stored active id if it still names an account,
else fall back to the first account; otherwise `_activeId` is left as-is. -/
def load (s : ManagerState) : ManagerState :=
  let accounts := s.vault
  let newActive : Option String :=
    match s.storedActiveId with
    | some sid =>
        if accounts.any (fun a => a.id == sid) then some sid
        else
          match accounts.head? with
          | some a => some a.id
          | none => s.activeId
    | none =>
        match accounts.head? with
        | some a => some a.id
        | none => s.activeId
  { s with accounts := accounts, activeId := newActive }

/-- `AccountManager.setActive` (`manager.ts` lines 44-59): demote the
previously active account to `idle` (only when it differs from the new one)
and persist it, point `_activeId` at the new account, stamp its
`lastUsedAt`, persist it and the active id.  The in-place mutations of
`prev` and `account` are embedded as rewrites of the list entries with the
corresponding ids. -/
def setActive (now : String) (acc : MacideAccount) (s : ManagerState) : ManagerState :=
  let prevOpt := getActive s
  let accNew := { acc with lastUsedAt := now }
  let demoted : List MacideAccount :=
    match prevOpt with
    | some prev =>
        if prev.id == acc.id then s.accounts
        else s.accounts.map (fun b => if b.id == prev.id then { b with status := .idle } else b)
    | none => s.accounts
  let accounts2 := demoted.map (fun b => if b.id == accNew.id then accNew else b)
  let vault1 :=
    match prevOpt with
    | some prev =>
        if prev.id == acc.id then s.vault
        else upsertList { prev with status := .idle } s.vault
    | none => s.vault
  { accounts := accounts2
    activeId := some acc.id
    vault := upsertList accNew vault1
    storedActiveId := some acc.id }

/-- `AccountManager.addAccount` (`manager.ts` lines 61-65). -/
def addAccount (a : MacideAccount) (s : ManagerState) : ManagerState :=
  { s with
    accounts := (s.accounts.filter (fun b => b.id != a.id)) ++ [a]
    vault := upsertList a s.vault }

/-- `AccountManager.removeAccountById` (`manager.ts` lines 67-76). -/
def removeAccountById (i : String) (s : ManagerState) : ManagerState :=
  let accounts1 := s.accounts.filter (fun b => b.id != i)
  let vault1 := s.vault.filter (fun b => b.id != i)
  if s.activeId = some i then
    { accounts := accounts1
      activeId := accounts1.head?.map (fun a => a.id)
      vault := vault1
      storedActiveId := accounts1.head?.map (fun a => a.id) }
  else
    { s with accounts := accounts1, vault := vault1 }

/-- Replace the first list entry whose `id` matches `a.id` by `a`
(`findIndex` then in-place assignment, `manager.ts` lines 79-82). -/
def replaceFirstById (a : MacideAccount) : List MacideAccount → List MacideAccount
  | [] => []
  | b :: rest => if b.id == a.id then a :: rest else b :: replaceFirstById a rest

/-- `AccountManager.updateAccount` (`manager.ts` lines 78-85). -/
def updateAccount (a : MacideAccount) (s : ManagerState) : ManagerState :=
  { s with
    accounts := replaceFirstById a s.accounts
    vault := upsertList a s.vault }

/-- `AccountManager.saveAll` (`manager.ts` lines 87-91). -/
def saveAll (l : List MacideAccount) (s : ManagerState) : ManagerState :=
  { s with accounts := l, vault := l }

/-- The operations of the `AccountManager` interface, with their arguments. -/
inductive RegOp where
  | load
  | setActive (now : String) (a : MacideAccount)
  | add (a : MacideAccount)
  | remove (i : String)
  | update (a : MacideAccount)
  | saveAll (l : List MacideAccount)

/-- One `AccountManager` operation as a state transformer. -/
def step : RegOp → ManagerState → ManagerState
  | .load, s => load s
  | .setActive now a, s => setActive now a s
  | .add a, s => addAccount a s
  | .remove i, s => removeAccountById i s
  | .update a, s => updateAccount a s
  | .saveAll l, s => saveAll l s

/-- States reachable by an arbitrary sequence of `AccountManager`
operations, starting from a fresh manager (empty memory, `_activeId`
unset) over arbitrary pre-existing durable stores. -/
inductive Reachable : ManagerState → Prop where
  | init (v : List MacideAccount) (sid : Option String) :
      Reachable { accounts := [], activeId := none, vault := v, storedActiveId := sid }
  | step {s : ManagerState} (op : RegOp) :
      Reachable s → Reachable (step op s)

/-- Call-site discipline actually observed in the repository: `setActive` is
only invoked with account objects held by the manager, and `saveAll` only
with arrays that still contain the active account (`rotator.ts` passes
`getAll()` back). -/
def wfOp (s : ManagerState) : RegOp → Prop
  | .setActive _ a => a ∈ s.accounts
  | .saveAll l => ∀ i, s.activeId = some i → ∃ b ∈ l, b.id = i
  | _ => True

/-- States reachable when every operation respects `wfOp` at the state it
is applied in. -/
inductive ReachableWF : ManagerState → Prop where
  | init (v : List MacideAccount) (sid : Option String) :
      ReachableWF { accounts := [], activeId := none, vault := v, storedActiveId := sid }
  | step {s : ManagerState} (op : RegOp) :
      ReachableWF s → wfOp s op → ReachableWF (step op s)

/-- The active-pointer invariant: `_activeId`, if set, names an account
present in the in-memory `_accounts` list. -/
def activeRefsExisting (s : ManagerState) : Prop :=
  ∀ i, s.activeId = some i → ∃ a ∈ s.accounts, a.id = i

/-- Auxiliary invariant: every in-memory account id is also present in the
vault (the manager mirrors every mutation to the vault). -/
def idsSubsetVault (s : ManagerState) : Prop :=
  ∀ a ∈ s.accounts, ∃ v ∈ s.vault, v.id = a.id

/-- The rotation strategies of `AccountRotator` (`rotator.ts` line 11). -/
inductive RotationStrategy where
  | roundRobin
  | leastUsed
  | manual
deriving DecidableEq, Repr

/-- The non-exhausted accounts, in stored order: `getAll().filter(a =>
a.status !== 'exhausted')` (`rotator.ts` lines 59-60). -/
def available (s : ManagerState) : List MacideAccount :=
  s.accounts.filter (fun a => a.status != .exhausted)

/-- One step of the stable insertion used to embed the JavaScript
`sort((a, b) => a.requestCount - b.requestCount)` (`rotator.ts` line 71):
walk past every element whose count is `≤` the inserted one, so that
elements with equal counts keep their original relative order. -/
def insertByCount (a : MacideAccount) : List MacideAccount → List MacideAccount
  | [] => [a]
  | b :: rest =>
      if b.requestCount ≤ a.requestCount then b :: insertByCount a rest
      else a :: b :: rest

/-- Stable sort by `requestCount`, embedding the (stable, per ECMAScript)
`Array.prototype.sort` call of the least-used branch. -/
def sortByCount (l : List MacideAccount) : List MacideAccount :=
  l.foldl (fun acc a => insertByCount a acc) []

/-- One step of a left-to-right minimum scan by `requestCount`: keeps the
earlier element on ties, replaces it only on a strictly smaller count. -/
def minStep (m : Option MacideAccount) (a : MacideAccount) : Option MacideAccount :=
  match m with
  | none => some a
  | some b => if b.requestCount ≤ a.requestCount then some b else some a

/-- The first element (in list order) carrying the minimal `requestCount`. -/
def firstMinByCount (l : List MacideAccount) : Option MacideAccount :=
  l.foldl minStep none

/-- `AccountRotator.selectNext` (`rotator.ts` lines 58-75).  The round-robin
branch computes `available[(currentIndex + 1) % available.length]` where
`currentIndex` is `findIndex` of the active id in `available` (so `-1`,
hence position `0`, when the active account is exhausted or unset); the
least-used branch sorts a copy of `available` by `requestCount` and takes
the first element; `manual` returns `null`. -/
def selectNext (strat : RotationStrategy) (s : ManagerState) : Option MacideAccount :=
  let avail := available s
  if avail.length = 0 then none
  else
    match strat with
    | .roundRobin =>
        let currentIdOpt := (getActive s).map (fun a => a.id)
        let currentIndex : Nat :=
          match currentIdOpt with
          | some cid =>
              match avail.findIdx? (fun a => a.id == cid) with
              | some k => (k + 1) % avail.length
              | none => 0
          | none => 0
        avail[currentIndex]?
    | .leastUsed => (sortByCount avail).head?
    | .manual => none

/-- Modelled from the spec: the candidate set of §4.5, "all credentials
excluding the active one and excluding any with status `exhausted`".  The
source's `selectNext` (`rotator.ts` lines 59-60) filters only on
`exhausted`; this definition follows the spec's words instead, for
comparison with the source behaviour. -/
def specCandidates (s : ManagerState) : List MacideAccount :=
  s.accounts.filter (fun a => a.status != .exhausted && s.activeId != some a.id)

/-- `AccountRotator.onRateLimitDetected` (`rotator.ts` lines 33-52) on the
account object `a` (aliased into the manager's list): mark it `exhausted`
and persist; under `manual`, stop after an actionable notification;
otherwise `selectNext()` and, when a candidate exists, `setActive` it.
Returns the new state together with the number of `setActive` calls this
invocation performed (`0` or `1`). -/
def onRateLimitDetected (strat : RotationStrategy) (now : String) (a : MacideAccount)
    (s : ManagerState) : ManagerState × Nat :=
  let aEx := { a with status := AccountStatus.exhausted }
  let s1 := updateAccount aEx s
  if strat = .manual then (s1, 0)
  else
    match selectNext strat s1 with
    | some next => (setActive now next s1, 1)
    | none => (s1, 0)

/-- Fire the throttle handler for the credential with id `i`: the caller of
`onRateLimitDetected` (the HTTP interceptor) passes the live registry
object, looked up here by id to mirror reference aliasing.  An id absent
from the registry is a no-op of the model (never reached at the call
sites verified here). -/
def fireById (strat : RotationStrategy) (now : String) (i : String)
    (s : ManagerState) : ManagerState × Nat :=
  match s.accounts.find? (fun b => b.id == i) with
  | some a => onRateLimitDetected strat now a s
  | none => (s, 0)

/-- Fire the throttle handler three times in rapid succession on the same
credential, returning the final state and the total number of `setActive`
calls across the three invocations. -/
def fireThrice (strat : RotationStrategy) (now : String) (i : String)
    (s : ManagerState) : ManagerState × Nat :=
  let r1 := fireById strat now i s
  let r2 := fireById strat now i r1.1
  let r3 := fireById strat now i r2.1
  (r3.1, r1.2 + r2.2 + r3.2)

/-- Per-account daily rollover of `AccountRotator.resetDailyCountsIfNeeded`
(`rotator.ts` lines 85-94): a stale account has its counter zeroed, its
date stamped to today, and an `exhausted` status demoted to `idle`; a
fresh account is untouched. -/
def resetAccountDaily (today : String) (a : MacideAccount) : MacideAccount :=
  if a.requestCountDate != today then
    { a with
      requestCount := 0
      requestCountDate := today
      status := if a.status = .exhausted then .idle else a.status }
  else a

/-- `AccountRotator.resetDailyCountsIfNeeded` (`rotator.ts` lines 80-99):
mutate every stale account in place and call `saveAll` only when at least
one account changed.  The returned `Bool` records whether `saveAll`
(persistence) was invoked. -/
def resetDailyCountsIfNeeded (today : String) (s : ManagerState) : ManagerState × Bool :=
  let updated := s.accounts.map (resetAccountDaily today)
  let changed := s.accounts.any (fun a => a.requestCountDate != today)
  if changed then (saveAll updated s, true) else (s, false)

/-- Modelled from the spec: `AccountRotator.onWarningThreshold` is called by
`tracker.ts` line 61 but is absent from the sources (only its caller is
present); per spec §4.5 it is an "informational notification only, no state
change".  It is embedded as the number of notifications it emits. -/
def onWarningThreshold (_account : MacideAccount) : Nat := 1

/-- Result of one `AccountTracker.increment` call on an account object:
the mutated account, the new `_warnedToday` membership of its id, and the
number of `onWarningThreshold` notifications fired by the call. -/
structure IncrResult where
  account : MacideAccount
  warned : Bool
  fired : Nat
deriving DecidableEq, Repr

/-- `AccountTracker.increment` (`tracker.ts` lines 34-70) on one account
object.  `warned0` is whether `_warnedToday` currently holds the account id.
On a stale `requestCountDate` the daily window rolls (counter zeroed, date
stamped, `exhausted`/`warning` demoted to `healthy`, warned flag cleared;
the history write touches only usage history and is outside this model).
Then the counter and `lastUsedAt` advance and the status is recomputed from
`requestCount / dailyLimit`: the float comparison `pct >= 0.8` is embedded
as the exact rational test `5 * requestCount ≥ 4 * limit`, which agrees
with the IEEE-double comparison at these magnitudes.  The final
`updateAccount` persistence re-stores the aliased object and is modelled
at the registry level by `updateAccount`. -/
def incrementCore (today now : String) (limit : Nat) (warned0 : Bool)
    (a0 : MacideAccount) : IncrResult :=
  let rolled :=
    if a0.requestCountDate != today then
      ({ a0 with
          requestCount := 0
          requestCountDate := today
          status :=
            if a0.status = .exhausted ∨ a0.status = .warning then .healthy
            else a0.status },
        false)
    else (a0, warned0)
  let a1 := rolled.1
  let w1 := rolled.2
  let a2 := { a1 with requestCount := a1.requestCount + 1, lastUsedAt := now }
  if a2.status = .exhausted then ⟨a2, w1, 0⟩
  else
    if 5 * a2.requestCount ≥ 4 * limit then
      if w1 = false ∧ a2.status ≠ .warning then
        ⟨{ a2 with status := .warning }, true, onWarningThreshold a2⟩
      else ⟨{ a2 with status := .warning }, w1, 0⟩
    else ⟨{ a2 with status := .healthy }, w1, 0⟩

/-- `n` successive `increment` calls on the same (aliased) account object
within one day, accumulating the number of warning notifications fired. -/
def incrementN (today now : String) (limit : Nat) :
    Nat → Bool → MacideAccount → IncrResult
  | 0, w, a => ⟨a, w, 0⟩
  | n + 1, w, a =>
      let r := incrementN today now limit n w a
      let r2 := incrementCore today now limit r.warned r.account
      ⟨r2.account, r2.warned, r.fired + r2.fired⟩

/-- `readVault` (`vault.ts` lines 15-23).  `secrets.get` is embedded as the
optional stored string; `JSON.parse` as an arbitrary parse function whose
`Except.error` models a thrown parse exception.  A missing or empty
(falsy) stored string and a parse failure all yield the empty array; the
function is total, so no error escapes the vault boundary. -/
def readVault (parse : String → Except String (List MacideAccount))
    (stored : Option String) : List MacideAccount :=
  match stored with
  | none => []
  | some raw =>
      if raw = "" then []
      else
        match parse raw with
        | .ok accounts => accounts
        | .error _ => []

/-- The token-endpoint responses distinguished by the polling loop of
`OAuthFlow.authorize` (`oauthFlow.ts` lines 249-318). -/
inductive TokenPollResponse where
  | accessToken (tok : String)
  | authorizationPending
  | slowDown
  | expiredToken
  | accessDenied
  | providerError (code desc : String)
  | emptyResponse
deriving DecidableEq, Repr

/-- Whether the poll loop continues after this response: `access_token`
returns, `expired_token` / `access_denied` / any other reported error
throw; `authorization_pending`, `slow_down` and an error-free body fall
through to the next iteration. -/
def continuesPolling : TokenPollResponse → Bool
  | .authorizationPending => true
  | .slowDown => true
  | .emptyResponse => true
  | _ => false

/-- `pollInterval` update of one loop iteration: `slow_down` adds exactly
5000 ms (`pollInterval += 5000`, `oauthFlow.ts` line 300); nothing else
ever writes `pollInterval`. -/
def nextInterval (i : Nat) (r : TokenPollResponse) : Nat :=
  if r = .slowDown then i + 5000 else i

/-- The successive sleep durations (ms) of the polling loop of
`OAuthFlow.authorize`, given the initial `pollInterval` and the sequence
of token-endpoint responses: each iteration sleeps the current interval,
reads one response, and continues with `nextInterval` unless the response
terminates the flow. -/
def pollIntervals (i : Nat) : List TokenPollResponse → List Nat
  | [] => []
  | r :: rs =>
      i :: (if continuesPolling r then pollIntervals (nextInterval i r) rs else [])

/-! Concrete states used by counterexamples and witnesses. -/

/-- Three healthy accounts `a`, `b`, `c`, as in the burst scenario. -/
def accsABC : List MacideAccount :=
  [⟨"a", 0, "2026-10-11", .healthy, "t0"⟩,
   ⟨"b", 0, "2026-10-11", .healthy, "t0"⟩,
   ⟨"c", 0, "2026-10-11", .healthy, "t0"⟩]

/-- Registry with accounts `a`, `b`, `c` and `a` active. -/
def stateABC : ManagerState :=
  { accounts := accsABC, activeId := some "a", vault := accsABC, storedActiveId := some "a" }

/-- Registry holding a single healthy account that is also the active one. -/
def stateSoloActive : ManagerState :=
  { accounts := [⟨"a", 0, "2026-10-11", .healthy, "t0"⟩]
    activeId := some "a"
    vault := [⟨"a", 0, "2026-10-11", .healthy, "t0"⟩]
    storedActiveId := some "a" }

/-- Registry `[A, B, C]` with `B` active and `C` exhausted, the round-robin
wrap scenario of the spec. -/
def stateWrapBC : ManagerState :=
  { accounts :=
      [⟨"a", 0, "2026-10-11", .healthy, "t0"⟩,
       ⟨"b", 0, "2026-10-11", .healthy, "t0"⟩,
       ⟨"c", 0, "2026-10-11", .exhausted, "t0"⟩]
    activeId := some "b"
    vault := []
    storedActiveId := some "b" }

/-- Registry with counts `{a : 1, b : 2}` and `a` active: the active
account holds the strictly smallest `requestCount`. -/
def stateActiveMin : ManagerState :=
  { accounts :=
      [⟨"a", 1, "2026-10-11", .healthy, "t0"⟩,
       ⟨"b", 2, "2026-10-11", .healthy, "t0"⟩]
    activeId := some "a"
    vault := []
    storedActiveId := some "a" }

/-- Registry with counts `{a : 5, b : 2, c : 9}` and `a` active, the
least-used scenario of the spec. -/
def stateCounts529 : ManagerState :=
  { accounts :=
      [⟨"a", 5, "2026-10-11", .healthy, "t0"⟩,
       ⟨"b", 2, "2026-10-11", .healthy, "t0"⟩,
       ⟨"c", 9, "2026-10-11", .healthy, "t0"⟩]
    activeId := some "a"
    vault := []
    storedActiveId := some "a" }

/-- Registry with one stale `warning` account and one stale `exhausted`
account (dates before today). -/
def stateStaleWE : ManagerState :=
  { accounts :=
      [⟨"w", 5, "2026-10-11", .warning, "t0"⟩,
       ⟨"e", 7, "2026-10-11", .exhausted, "t0"⟩]
    activeId := some "w"
    vault := []
    storedActiveId := some "w" }

/-- An account object never stored in any registry. -/
def accForeign : MacideAccount := ⟨"x", 0, "2026-10-11", .healthy, "t0"⟩

/-- The state obtained by calling `setActive` with a foreign account on a
fresh, empty manager. -/
def stateDangling : ManagerState :=
  step (.setActive "t1" accForeign)
    { accounts := [], activeId := none, vault := [], storedActiveId := none }

/-- A fresh account at the start of the warning-threshold scenario. -/
def accFresh : MacideAccount := ⟨"w1", 0, "2026-10-12", .healthy, "t0"⟩

/-- A demonstration poll trace: pending, then `slow_down`, then pending. -/
def demoTrace : List TokenPollResponse :=
  [.authorizationPending, .slowDown, .authorizationPending]

/-- A parse function that fails on every input, standing for `JSON.parse`
applied to corrupt stored data. -/
def parseCorrupt : String → Except String (List MacideAccount) :=
  fun _ => .error "corrupt"

/-! Lemmas about the stable sort and the selection helpers. -/

theorem mem_of_mem_insertByCount {x a : MacideAccount} :
    ∀ {l : List MacideAccount}, x ∈ insertByCount a l → x = a ∨ x ∈ l := by
  intro l
  induction l with
  | nil =>
      intro h
      simp only [insertByCount, List.mem_singleton] at h
      exact Or.inl h
  | cons b rest ih =>
      intro h
      by_cases hc : b.requestCount ≤ a.requestCount
      · rw [insertByCount, if_pos hc] at h
        rcases List.mem_cons.mp h with h1 | h1
        · exact Or.inr (List.mem_cons.mpr (Or.inl h1))
        · rcases ih h1 with h2 | h2
          · exact Or.inl h2
          · exact Or.inr (List.mem_cons.mpr (Or.inr h2))
      · rw [insertByCount, if_neg hc] at h
        rcases List.mem_cons.mp h with h1 | h1
        · exact Or.inl h1
        · exact Or.inr h1

theorem mem_of_mem_sortFold {x : MacideAccount} :
    ∀ (l acc : List MacideAccount),
      x ∈ l.foldl (fun acc a => insertByCount a acc) acc → x ∈ acc ∨ x ∈ l := by
  intro l
  induction l with
  | nil =>
      intro acc h
      exact Or.inl h
  | cons a rest ih =>
      intro acc h
      rcases ih (insertByCount a acc) h with h1 | h1
      · rcases mem_of_mem_insertByCount h1 with h2 | h2
        · exact Or.inr (by simp [h2])
        · exact Or.inl h2
      · exact Or.inr (List.mem_cons.mpr (Or.inr h1))

theorem mem_of_mem_sortByCount {x : MacideAccount} {l : List MacideAccount}
    (h : x ∈ sortByCount l) : x ∈ l := by
  rcases mem_of_mem_sortFold l [] h with h1 | h1
  · simp at h1
  · exact h1

theorem head?_insertByCount (a : MacideAccount) (l : List MacideAccount) :
    (insertByCount a l).head? = minStep l.head? a := by
  cases l with
  | nil => rfl
  | cons b rest =>
      by_cases hc : b.requestCount ≤ a.requestCount
      · simp [insertByCount, minStep, hc]
      · simp [insertByCount, minStep, hc]

theorem head?_sortFold :
    ∀ (l acc : List MacideAccount),
      (l.foldl (fun acc a => insertByCount a acc) acc).head? = l.foldl minStep acc.head? := by
  intro l
  induction l with
  | nil => intro acc; rfl
  | cons a rest ih =>
      intro acc
      simp only [List.foldl_cons]
      rw [ih (insertByCount a acc), head?_insertByCount]

theorem sortByCount_head? (l : List MacideAccount) :
    (sortByCount l).head? = firstMinByCount l := by
  simpa using head?_sortFold l []

theorem minStep_fold_spec :
    ∀ (l : List MacideAccount) (m0 : Option MacideAccount) (m : MacideAccount),
      l.foldl minStep m0 = some m →
      (m0 = some m ∨ m ∈ l) ∧
      (∀ b, m0 = some b → m.requestCount ≤ b.requestCount) ∧
      (∀ b ∈ l, m.requestCount ≤ b.requestCount) := by
  intro l
  induction l with
  | nil =>
      intro m0 m h
      simp only [List.foldl_nil] at h
      subst h
      refine ⟨Or.inl rfl, ?_, ?_⟩
      · intro b hb
        injection hb with hb
        subst hb
        exact le_refl _
      · intro b hb
        simp at hb
  | cons a rest ih =>
      intro m0 m h
      simp only [List.foldl_cons] at h
      obtain ⟨hmem, hstep, hrest⟩ := ih (minStep m0 a) m h
      refine ⟨?_, ?_, ?_⟩
      · rcases hmem with hmem | hmem
        · cases m0 with
          | none =>
              simp only [minStep] at hmem
              injection hmem with hmem
              exact Or.inr (List.mem_cons.mpr (Or.inl hmem.symm))
          | some b =>
              by_cases hc : b.requestCount ≤ a.requestCount
              · simp only [minStep, if_pos hc] at hmem
                exact Or.inl hmem
              · simp only [minStep, if_neg hc] at hmem
                injection hmem with hmem
                exact Or.inr (List.mem_cons.mpr (Or.inl hmem.symm))
        · exact Or.inr (List.mem_cons.mpr (Or.inr hmem))
      · intro b hb
        subst hb
        by_cases hc : b.requestCount ≤ a.requestCount
        · exact hstep b (by simp [minStep, hc])
        · exact le_trans (hstep a (by simp [minStep, hc])) (le_of_not_le hc)
      · intro c hmc
        rcases List.mem_cons.mp hmc with hmc | hmc
        · subst hmc
          cases m0 with
          | none => exact hstep c (by simp [minStep])
          | some d =>
              by_cases hc : d.requestCount ≤ c.requestCount
              · exact le_trans (hstep d (by simp [minStep, hc])) hc
              · exact hstep c (by simp [minStep, hc])
        · exact hrest c hmc

theorem firstMin_mem_le {l : List MacideAccount} {m : MacideAccount}
    (h : firstMinByCount l = some m) :
    m ∈ l ∧ ∀ b ∈ l, m.requestCount ≤ b.requestCount := by
  obtain ⟨h1, _, h3⟩ := minStep_fold_spec l none m h
  rcases h1 with h1 | h1
  · cases h1
  · exact ⟨h1, h3⟩

theorem selectNext_leastUsed_eq (s : ManagerState) :
    selectNext .leastUsed s = firstMinByCount (available s) := by
  by_cases hlen : (available s).length = 0
  · have hnil : available s = [] := List.length_eq_zero.mp hlen
    simp [selectNext, hlen, hnil, firstMinByCount]
  · simp only [selectNext]
    rw [if_neg hlen]
    exact sortByCount_head? (available s)

theorem selectNext_mem {strat : RotationStrategy} {s : ManagerState} {c : MacideAccount}
    (h : selectNext strat s = some c) : c ∈ available s := by
  by_cases hlen : (available s).length = 0
  · simp [selectNext, hlen] at h
  · rw [selectNext.eq_def] at h
    rw [if_neg hlen] at h
    cases strat with
    | roundRobin => exact List.getElem?_mem h
    | leastUsed =>
        have hmem : c ∈ sortByCount (available s) := by
          cases hsort : sortByCount (available s) with
          | nil => rw [hsort] at h; simp at h
          | cons x xs =>
              rw [hsort] at h
              simp only [List.head?_cons, Option.some.injEq] at h
              rw [h]
              exact List.mem_cons_self c xs
        exact mem_of_mem_sortByCount hmem
    | manual => simp at h

theorem selectNext_status {strat : RotationStrategy} {s : ManagerState} {c : MacideAccount}
    (h : selectNext strat s = some c) : c.status ≠ .exhausted := by
  have hmem := selectNext_mem h
  have := (List.mem_filter.mp hmem).2
  simpa using this

theorem length_insertByCount (a : MacideAccount) :
    ∀ l : List MacideAccount, (insertByCount a l).length = l.length + 1 := by
  intro l
  induction l with
  | nil => rfl
  | cons b rest ih =>
      by_cases hc : b.requestCount ≤ a.requestCount
      · rw [insertByCount, if_pos hc]
        simp [ih]
      · rw [insertByCount, if_neg hc]
        simp

theorem length_sortFold :
    ∀ (l acc : List MacideAccount),
      (l.foldl (fun acc a => insertByCount a acc) acc).length = acc.length + l.length := by
  intro l
  induction l with
  | nil => intro acc; simp
  | cons a rest ih =>
      intro acc
      simp only [List.foldl_cons]
      rw [ih (insertByCount a acc), length_insertByCount]
      simp only [List.length_cons]
      omega

theorem length_sortByCount (l : List MacideAccount) :
    (sortByCount l).length = l.length := by
  simpa using length_sortFold l []

theorem selectNext_isSome {strat : RotationStrategy} {s : ManagerState}
    (hstrat : strat ≠ .manual) (hne : available s ≠ []) :
    (selectNext strat s).isSome := by
  have hlen : (available s).length ≠ 0 := by
    simpa [List.length_eq_zero] using hne
  have hpos : 0 < (available s).length := Nat.pos_of_ne_zero hlen
  rw [selectNext.eq_def]
  rw [if_neg hlen]
  cases strat with
  | manual => exact absurd rfl hstrat
  | roundRobin =>
      have hval : ∀ j, j < (available s).length → ((available s)[j]?).isSome := by
        intro j hj
        rw [List.getElem?_eq_getElem hj]
        rfl
      dsimp only
      cases hga : (getActive s).map (fun a => a.id) with
      | none => exact hval 0 hpos
      | some cid =>
          dsimp only
          cases hfi : (available s).findIdx? (fun a => a.id == cid) with
          | none => exact hval 0 hpos
          | some k =>
              dsimp only
              exact hval _ (Nat.mod_lt _ hpos)
  | leastUsed =>
      have hlenSort : (sortByCount (available s)).length ≠ 0 := by
        rw [length_sortByCount]
        exact hlen
      dsimp only
      rw [List.head?_isSome]
      intro hnil
      exact hlenSort (by rw [hnil]; rfl)

/-- C2 counterexample: with a single healthy account that is also the
active one, round-robin `selectNext()` returns the active credential
itself (index arithmetic `(0 + 1) % 1 = 0`), so the returned credential is
not always distinct from the active credential as the claim states. -/
theorem selectNext_returns_active_cex :
    selectNext .roundRobin stateSoloActive =
      some ⟨"a", 0, "2026-10-11", .healthy, "t0"⟩ ∧
    getActive stateSoloActive = some ⟨"a", 0, "2026-10-11", .healthy, "t0"⟩ := by
  constructor
  · decide
  · decide

/-- C2 (amended): whenever `selectNext()` returns a credential, that
credential does not have status `exhausted` (it may, however, be the
active credential, which the source filter does not exclude); and for the
credential list `[A, B, C]` with `B` active and `C` exhausted, round-robin
`selectNext()` returns `A` (wrapping), hence never `B`. -/
theorem selectNext_not_exhausted_and_wraps :
    (∀ (strat : RotationStrategy) (s : ManagerState) (c : MacideAccount),
        selectNext strat s = some c → c.status ≠ .exhausted) ∧
    selectNext .roundRobin stateWrapBC =
      some ⟨"a", 0, "2026-10-11", .healthy, "t0"⟩ ∧
    (selectNext .roundRobin stateWrapBC).map (fun c => c.id) ≠ some "b" := by
  refine ⟨?_, by decide, by decide⟩
  intro strat s c h
  exact selectNext_status h

/-- Witness for the amended C2 theorem at a concrete state and result. -/
theorem selectNext_not_exhausted_witness :
    (⟨"a", 0, "2026-10-11", AccountStatus.healthy, "t0"⟩ : MacideAccount).status ≠
      AccountStatus.exhausted :=
  selectNext_not_exhausted_and_wraps.1 .roundRobin stateWrapBC _ (by decide)

/-- C9 counterexample: with counts `{a : 1, b : 2}` and `a` active,
least-used `selectNext()` returns the active credential `a`, which is not
a member of the spec's candidate set (candidates exclude the active
credential); the smallest-count candidate would be `b`. -/
theorem leastUsed_candidate_cex :
    selectNext .leastUsed stateActiveMin =
      some ⟨"a", 1, "2026-10-11", .healthy, "t0"⟩ ∧
    (⟨"a", 1, "2026-10-11", AccountStatus.healthy, "t0"⟩ : MacideAccount) ∉
      specCandidates stateActiveMin ∧
    specCandidates stateActiveMin = [⟨"b", 2, "2026-10-11", .healthy, "t0"⟩] := by
  refine ⟨by decide, by decide, by decide⟩

/-- C9 (amended): under the least-used strategy, `selectNext()` returns
the first (in list order) non-exhausted credential with the smallest
`requestCount`, drawn from all non-exhausted credentials including the
active one; in particular it is a minimum over that set, and for counts
`{A : 5, B : 2, C : 9}` with `A` active it returns `B`. -/
theorem selectNext_leastUsed_first_min :
    (∀ s : ManagerState, selectNext .leastUsed s = firstMinByCount (available s)) ∧
    (∀ (s : ManagerState) (m : MacideAccount),
        selectNext .leastUsed s = some m →
          m ∈ available s ∧ ∀ b ∈ available s, m.requestCount ≤ b.requestCount) ∧
    selectNext .leastUsed stateCounts529 =
      some ⟨"b", 2, "2026-10-11", .healthy, "t0"⟩ := by
  refine ⟨selectNext_leastUsed_eq, ?_, by decide⟩
  intro s m h
  rw [selectNext_leastUsed_eq] at h
  exact firstMin_mem_le h

/-- Witness for the amended C9 theorem at a concrete state and result. -/
theorem selectNext_leastUsed_first_min_witness :
    (⟨"b", 2, "2026-10-11", AccountStatus.healthy, "t0"⟩ : MacideAccount) ∈
      available stateCounts529 :=
  (selectNext_leastUsed_first_min.2.1 stateCounts529 _ (by decide)).1

/-- C7: `readVault` returns the empty credential list when nothing is
stored (a missing or empty secret) and when the stored data is corrupt
(the parse fails); being a total function into `List MacideAccount`, it
propagates no error to the caller. -/
theorem readVault_corruption_swallowed
    (parse : String → Except String (List MacideAccount)) (raw e : String) :
    readVault parse none = [] ∧
    readVault parse (some "") = [] ∧
    (parse raw = .error e → readVault parse (some raw) = []) := by
  refine ⟨rfl, rfl, ?_⟩
  intro h
  by_cases hr : raw = ""
  · simp [readVault, hr]
  · simp [readVault, hr, h]

/-- Witness for C7 with a concrete always-failing parse function. -/
theorem readVault_corruption_swallowed_witness :
    readVault parseCorrupt (some "oops") = [] :=
  (readVault_corruption_swallowed parseCorrupt "oops" "corrupt").2.2 rfl

/-- Helper: every account held after `resetDailyCountsIfNeeded` carries
today's date. -/
theorem resetDaily_all_today (today : String) (s : ManagerState) :
    ∀ a ∈ (resetDailyCountsIfNeeded today s).1.accounts, a.requestCountDate = today := by
  by_cases hch : s.accounts.any (fun a => a.requestCountDate != today)
  · intro a ha
    simp only [resetDailyCountsIfNeeded, hch, if_true, saveAll] at ha
    rcases List.mem_map.mp ha with ⟨b, _, hb⟩
    by_cases hbd : b.requestCountDate != today
    · rw [← hb]
      simp [resetAccountDaily, hbd]
    · rw [← hb]
      simp only [resetAccountDaily, hbd, if_neg]
      simpa using hbd
  · intro a ha
    have hch2 : s.accounts.any (fun a => a.requestCountDate != today) = false := by
      exact Bool.eq_false_iff.mpr hch
    simp only [resetDailyCountsIfNeeded, hch2] at ha
    have := List.any_eq_false.mp hch2 a (by simpa using ha)
    simpa using this

/-- C6: `resetDailyCountsIfNeeded()` is idempotent within a day: a second
call on the same day mutates nothing and does not persist (returns the
state unchanged with `saveAll` not invoked). -/
theorem resetDaily_noop {today : String} {s : ManagerState}
    (h : s.accounts.any (fun a => a.requestCountDate != today) = false) :
    resetDailyCountsIfNeeded today s = (s, false) := by
  simp only [resetDailyCountsIfNeeded, h, Bool.false_eq_true, if_false]

theorem resetDaily_idempotent (today : String) (s : ManagerState) :
    resetDailyCountsIfNeeded today (resetDailyCountsIfNeeded today s).1 =
      ((resetDailyCountsIfNeeded today s).1, false) := by
  have hall := resetDaily_all_today today s
  have hany : (resetDailyCountsIfNeeded today s).1.accounts.any
      (fun a => a.requestCountDate != today) = false := by
    rw [List.any_eq_false]
    intro a ha
    simp [hall a ha]
  exact resetDaily_noop hany

/-- Helper: the head of the interval list of a non-empty poll trace is the
current interval. -/
theorem pollIntervals_get_zero {i z : Nat} :
    ∀ {rs : List TokenPollResponse}, (pollIntervals i rs).get? 0 = some z → z = i := by
  intro rs h
  cases rs with
  | nil => simp [pollIntervals] at h
  | cons r rest =>
      simp only [pollIntervals, List.get?_cons_zero, Option.some.injEq] at h
      exact h.symm

/-- Helper: the interval list is pairwise non-decreasing and bounded below
by the initial interval. -/
theorem pollIntervals_pairwise :
    ∀ (rs : List TokenPollResponse) (i : Nat),
      (pollIntervals i rs).Pairwise (· ≤ ·) ∧ ∀ x ∈ pollIntervals i rs, i ≤ x := by
  intro rs
  induction rs with
  | nil => intro i; simp [pollIntervals]
  | cons r rest ih =>
      intro i
      have hle : i ≤ nextInterval i r := by
        by_cases hr : r = .slowDown
        · simp [nextInterval, hr]
        · simp [nextInterval, hr]
      by_cases hc : continuesPolling r
      · obtain ⟨hpw, hbd⟩ := ih (nextInterval i r)
        constructor
        · simp only [pollIntervals, hc, if_true]
          rw [List.pairwise_cons]
          exact ⟨fun x hx => le_trans hle (hbd x hx), hpw⟩
        · intro x hx
          simp only [pollIntervals, hc, if_true] at hx
          rcases List.mem_cons.mp hx with hx | hx
          · exact le_of_eq hx.symm
          · exact le_trans hle (hbd x hx)
      · have hc2 : continuesPolling r = false := Bool.eq_false_iff.mpr hc
        constructor
        · simp [pollIntervals, hc2]
        · intro x hx
          simp only [pollIntervals, hc2, if_false] at hx
          rcases List.mem_cons.mp hx with hx | hx
          · exact le_of_eq hx.symm
          · simp at hx

/-- Helper: a `slow_down` response at poll iteration `k` makes the next
sleep exactly 5000 ms longer. -/
theorem pollIntervals_slowDown_exact :
    ∀ (rs : List TokenPollResponse) (i k x y : Nat),
      rs.get? k = some .slowDown →
      (pollIntervals i rs).get? k = some x →
      (pollIntervals i rs).get? (k + 1) = some y →
      y = x + 5000 := by
  intro rs
  induction rs with
  | nil =>
      intro i k x y h1 _ _
      simp at h1
  | cons r rest ih =>
      intro i k x y h1 h2 h3
      cases k with
      | zero =>
          have hr : r = .slowDown := by
            simpa using h1
          subst hr
          have hx : x = i := by
            simp only [pollIntervals, List.get?_cons_zero, Option.some.injEq] at h2
            exact h2.symm
          subst hx
          have hcont : continuesPolling TokenPollResponse.slowDown = true := rfl
          simp only [pollIntervals, hcont, if_true, List.get?_cons_succ] at h3
          have hnext : nextInterval x TokenPollResponse.slowDown = x + 5000 := by
            simp [nextInterval]
          rw [hnext] at h3
          exact pollIntervals_get_zero h3
      | succ k =>
          have h1r : rest.get? k = some .slowDown := by
            simpa using h1
          by_cases hc : continuesPolling r
          · simp only [pollIntervals, hc, if_true, List.get?_cons_succ] at h2 h3
            exact ih (nextInterval i r) k x y h1r h2 h3
          · have hc2 : continuesPolling r = false := Bool.eq_false_iff.mpr hc
            simp only [pollIntervals, hc2, if_false, List.get?_cons_succ] at h2
            simp at h2

/-- C8: in the device-flow polling loop, the successive sleep intervals
are monotonically non-decreasing over the whole flow, and a `slow_down`
response increases the next interval by exactly 5000 ms over the interval
of the iteration that received it. -/
theorem pollIntervals_backoff (i : Nat) (rs : List TokenPollResponse) :
    (pollIntervals i rs).Pairwise (· ≤ ·) ∧
    ∀ k x y,
      rs.get? k = some .slowDown →
      (pollIntervals i rs).get? k = some x →
      (pollIntervals i rs).get? (k + 1) = some y →
      y = x + 5000 := by
  constructor
  · exact (pollIntervals_pairwise rs i).1
  · intro k x y h1 h2 h3
    exact pollIntervals_slowDown_exact rs i k x y h1 h2 h3

/-- Witness for C8 on the demonstration trace: the second iteration gets
`slow_down` at interval 5000 and the third iteration sleeps 10000. -/
theorem pollIntervals_backoff_witness :
    pollIntervals 5000 demoTrace = [5000, 5000, 10000] ∧ (10000 : Nat) = 5000 + 5000 :=
  ⟨rfl, (pollIntervals_backoff 5000 demoTrace).2 1 5000 10000 rfl rfl rfl⟩

/-- C4 counterexample: after a daily reset, a stale `warning` account keeps
status `warning` (the source resets only `exhausted`) and a stale
`exhausted` account is demoted to `idle`, not to `healthy` as the claim
states. -/
theorem resetDaily_status_cex :
    (resetDailyCountsIfNeeded "2026-10-12" stateStaleWE).1.accounts.map (fun a => a.status) =
      [.warning, .idle] ∧
    (resetDailyCountsIfNeeded "2026-10-12" stateStaleWE).1.accounts.map (fun a => a.status) ≠
      [.healthy, .healthy] := by
  constructor
  · decide
  · decide

/-- C4 (amended): for every call to `resetDailyCountsIfNeeded()`, every
credential whose `requestCountDate` is not today has its counter zeroed
and its date stamped to today, with status demoted to `idle` if it was
`exhausted` and left unchanged otherwise (in particular `warning` stays
`warning`); credentials already stamped today are untouched, and the
registry is persisted exactly when at least one credential was stale. -/
theorem resetDaily_characterization (today : String) (s : ManagerState) :
    ((resetDailyCountsIfNeeded today s).2 = true ↔
      ∃ a ∈ s.accounts, a.requestCountDate ≠ today) ∧
    ((resetDailyCountsIfNeeded today s).2 = false → (resetDailyCountsIfNeeded today s).1 = s) ∧
    (resetDailyCountsIfNeeded today s).1.accounts.length = s.accounts.length ∧
    ∀ (k : Nat) (hk : k < s.accounts.length)
      (hk2 : k < (resetDailyCountsIfNeeded today s).1.accounts.length),
      ((s.accounts.get ⟨k, hk⟩).requestCountDate ≠ today →
        (resetDailyCountsIfNeeded today s).1.accounts.get ⟨k, hk2⟩ =
          { s.accounts.get ⟨k, hk⟩ with
            requestCount := 0
            requestCountDate := today
            status :=
              if (s.accounts.get ⟨k, hk⟩).status = .exhausted then .idle
              else (s.accounts.get ⟨k, hk⟩).status }) ∧
      ((s.accounts.get ⟨k, hk⟩).requestCountDate = today →
        (resetDailyCountsIfNeeded today s).1.accounts.get ⟨k, hk2⟩ =
          s.accounts.get ⟨k, hk⟩) := by
  by_cases hch : s.accounts.any (fun a => a.requestCountDate != today)
  · have h1 : resetDailyCountsIfNeeded today s =
        (saveAll (s.accounts.map (resetAccountDaily today)) s, true) := by
      simp only [resetDailyCountsIfNeeded, hch, if_true]
    rw [h1]
    refine ⟨?_, ?_, ?_, ?_⟩
    · simp only [true_iff]
      rcases List.any_eq_true.mp hch with ⟨a, ha, hpa⟩
      exact ⟨a, ha, by simpa using hpa⟩
    · intro hfalse
      cases hfalse
    · simp [saveAll]
    · intro k hk hk2
      constructor
      · intro hstale
        simp only [saveAll, List.get_eq_getElem, List.getElem_map]
        simp only [List.get_eq_getElem] at hstale
        simp [resetAccountDaily, hstale]
      · intro hfresh
        simp only [saveAll, List.get_eq_getElem, List.getElem_map]
        simp only [List.get_eq_getElem] at hfresh
        simp [resetAccountDaily, hfresh]
  · have hch2 : s.accounts.any (fun a => a.requestCountDate != today) = false :=
      Bool.eq_false_iff.mpr hch
    have h1 : resetDailyCountsIfNeeded today s = (s, false) := resetDaily_noop hch2
    rw [h1]
    have hfresh : ∀ a ∈ s.accounts, a.requestCountDate = today := by
      intro a ha
      have := List.any_eq_false.mp hch2 a ha
      simpa using this
    refine ⟨?_, fun _ => rfl, rfl, ?_⟩
    · constructor
      · intro hfalse
        cases hfalse
      · rintro ⟨a, ha, hstale⟩
        exact absurd (hfresh a ha) hstale
    · intro k hk hk2
      constructor
      · intro hstale
        exact absurd (hfresh _ (s.accounts.get_mem k hk)) hstale
      · intro _
        rfl

/-- Witness for the amended C4 theorem: on the stale registry the reset
persists, and the stale exhausted account at index 1 is demoted to `idle`
with its counter zeroed and its date stamped. -/
theorem resetDaily_characterization_witness :
    (resetDailyCountsIfNeeded "2026-10-12" stateStaleWE).2 = true :=
  (resetDaily_characterization "2026-10-12" stateStaleWE).1.mpr (by decide)

/-- Helper: full characterization of `n` same-day `increment` calls with
`dailyLimit = 300` starting from a fresh healthy account: the counter
equals `n`, the status flips to `warning` exactly when `n` reaches 240
(the `5 * 240 ≥ 4 * 300` threshold, i.e. 80%), the warned flag is set from
that point on, and exactly one notification has fired iff `n ≥ 240`. -/
theorem incrementN_char (today now : String) (a : MacideAccount)
    (hdate : a.requestCountDate = today) (hstatus : a.status = .healthy)
    (hcount : a.requestCount = 0) :
    ∀ n : Nat,
      (incrementN today now 300 n false a).account.requestCount = n ∧
      (incrementN today now 300 n false a).account.requestCountDate = today ∧
      (incrementN today now 300 n false a).account.status =
        (if 240 ≤ n then AccountStatus.warning else .healthy) ∧
      (incrementN today now 300 n false a).warned = decide (240 ≤ n) ∧
      (incrementN today now 300 n false a).fired = (if 240 ≤ n then 1 else 0) := by
  intro n
  induction n with
  | zero =>
      refine ⟨hcount, hdate, ?_, ?_, ?_⟩
      · simpa [incrementN] using hstatus
      · simp [incrementN]
      · simp [incrementN]
  | succ n ih =>
      obtain ⟨h1, h2, h3, h4, h5⟩ := ih
      have hroll : ((incrementN today now 300 n false a).account.requestCountDate != today)
          = false := by
        simp [h2]
      by_cases h240 : 240 ≤ n
      · have h241 : 240 ≤ n + 1 := le_trans h240 (Nat.le_succ n)
        have hth : (1200 : Nat) ≤ 5 * (n + 1) := by omega
        refine ⟨?_, ?_, ?_, ?_, ?_⟩ <;>
          simp [incrementN, incrementCore, hroll, h1, h2, h3, h4, h5, h240, h241, hth,
            onWarningThreshold]
      · by_cases h241 : 240 ≤ n + 1
        · have hn : n = 239 := by omega
          have hth : (1200 : Nat) ≤ 5 * (n + 1) := by omega
          refine ⟨?_, ?_, ?_, ?_, ?_⟩ <;>
            simp [incrementN, incrementCore, hroll, h1, h2, h3, h4, h5, h240, h241, hth,
              onWarningThreshold]
        · have hth : ¬ ((1200 : Nat) ≤ 5 * (n + 1)) := by omega
          refine ⟨?_, ?_, ?_, ?_, ?_⟩ <;>
            simp [incrementN, incrementCore, hroll, h1, h2, h3, h4, h5, h240, h241, hth]

/-- C5: starting from a fresh credential (counter 0, stamped today,
status `healthy`, not yet warned) with `dailyLimit = 300`, 240 `increment`
calls in one day leave the status `warning` with exactly one
`onWarningThreshold` notification fired, and every shorter same-day prefix
(fewer than 240 calls) leaves the status `healthy` with no notification:
the status becomes `warning` exactly once, at the 80% crossing. -/
theorem tracker_warning_crossing (today now : String) (a : MacideAccount)
    (hdate : a.requestCountDate = today) (hstatus : a.status = .healthy)
    (hcount : a.requestCount = 0) :
    (incrementN today now 300 240 false a).account.status = .warning ∧
    (incrementN today now 300 240 false a).fired = 1 ∧
    ∀ k < 240,
      (incrementN today now 300 k false a).account.status = .healthy ∧
      (incrementN today now 300 k false a).fired = 0 := by
  have h := incrementN_char today now a hdate hstatus hcount
  refine ⟨?_, ?_, ?_⟩
  · have h3 := (h 240).2.2.1
    simpa using h3
  · have h5 := (h 240).2.2.2.2
    simpa using h5
  · intro k hk
    have h3 := (h k).2.2.1
    have h5 := (h k).2.2.2.2
    rw [if_neg (by omega)] at h3
    rw [if_neg (by omega)] at h5
    exact ⟨h3, h5⟩

/-- Witness for C5 at the concrete fresh account. -/
theorem tracker_warning_crossing_witness :
    (incrementN "2026-10-12" "t1" 300 240 false accFresh).account.status = .warning :=
  (tracker_warning_crossing "2026-10-12" "t1" accFresh rfl rfl rfl).1

/-- Helper: when the active id is `a.id` and `a` is stored, `getActive`
finds an account whose id is `a.id`. -/
theorem getActive_of_active_mem {a : MacideAccount} {s : ManagerState}
    (hactive : s.activeId = some a.id) (hmem : a ∈ s.accounts) :
    ∃ p, getActive s = some p ∧ p.id = a.id := by
  have hsome : (s.accounts.find? (fun b => b.id == a.id)).isSome := by
    rw [List.find?_isSome]
    exact ⟨a, hmem, by simp⟩
  rcases Option.isSome_iff_exists.mp hsome with ⟨p, hp⟩
  refine ⟨p, ?_, ?_⟩
  · rw [getActive, hactive]
    exact hp
  · have := List.find?_some hp
    simpa using this

/-- C10: calling `setActive` with the credential that is already active
performs no idle demotion: the active pointer is unchanged, every stored
credential keeps its status, and the only field change in the list is the
active credential's `lastUsedAt` stamp. -/
theorem setActive_on_active_frame {now : String} {a : MacideAccount} {s : ManagerState}
    (hactive : s.activeId = some a.id) (hmem : a ∈ s.accounts)
    (hnodup : (s.accounts.map (fun b => b.id)).Nodup) :
    (setActive now a s).activeId = s.activeId ∧
    (setActive now a s).accounts =
      s.accounts.map (fun b => if b.id == a.id then { b with lastUsedAt := now } else b) ∧
    (setActive now a s).accounts.map (fun b => b.status) =
      s.accounts.map (fun b => b.status) := by
  obtain ⟨p, hga, hpid⟩ := getActive_of_active_mem hactive hmem
  have hbeq : (p.id == a.id) = true := by simp [hpid]
  have hacc : (setActive now a s).accounts =
      s.accounts.map (fun b => if b.id == a.id then { a with lastUsedAt := now } else b) := by
    simp only [setActive, hga, hbeq, if_true]
  have hcongr : ∀ b ∈ s.accounts,
      (fun b => if b.id == a.id then { a with lastUsedAt := now } else b) b =
      (fun b => if b.id == a.id then { b with lastUsedAt := now } else b) b := by
    intro b hb
    by_cases hid : b.id = a.id
    · have hba : b = a :=
        List.inj_on_of_nodup_map hnodup hb hmem hid
      simp [hid, hba]
    · simp [hid]
  refine ⟨?_, ?_, ?_⟩
  · simp only [setActive, hactive]
  · rw [hacc]
    exact List.map_congr_left hcongr
  · rw [hacc, List.map_map]
    apply List.map_congr_left
    intro b hb
    by_cases hid : b.id = a.id
    · have hba : b = a :=
        List.inj_on_of_nodup_map hnodup hb hmem hid
      simp [Function.comp, hid, hba]
    · simp [Function.comp, hid]

/-- Witness for C10 at the singleton registry whose only account is the
active one. -/
theorem setActive_on_active_frame_witness :
    (setActive "t9" ⟨"a", 0, "2026-10-11", .healthy, "t0"⟩ stateSoloActive).activeId =
      stateSoloActive.activeId :=
  (@setActive_on_active_frame "t9" ⟨"a", 0, "2026-10-11", .healthy, "t0"⟩ stateSoloActive
    (by decide) (by decide) (by decide)).1

/-! Lemmas for the registry invariant (C3). -/

theorem upsertList_exists_of_exists {j : String} {a : MacideAccount} :
    ∀ {l : List MacideAccount}, (∃ v ∈ l, v.id = j) → ∃ v ∈ upsertList a l, v.id = j := by
  intro l
  induction l with
  | nil =>
      rintro ⟨v, hv, _⟩
      cases hv
  | cons b rest ih =>
      rintro ⟨v, hv, hvj⟩
      by_cases hb : (b.id == a.id) = true
      · rw [upsertList, if_pos hb]
        rcases List.mem_cons.mp hv with hv | hv
        · subst hv
          have hba : v.id = a.id := by simpa using hb
          exact ⟨a, List.mem_cons_self _ _, by rw [← hba]; exact hvj⟩
        · exact ⟨v, List.mem_cons.mpr (Or.inr hv), hvj⟩
      · rw [upsertList, if_neg hb]
        rcases List.mem_cons.mp hv with hv | hv
        · subst hv
          exact ⟨v, List.mem_cons_self _ _, hvj⟩
        · obtain ⟨w, hw, hwj⟩ := ih ⟨v, hv, hvj⟩
          exact ⟨w, List.mem_cons.mpr (Or.inr hw), hwj⟩

theorem upsertList_exists_self (a : MacideAccount) :
    ∀ l : List MacideAccount, ∃ v ∈ upsertList a l, v.id = a.id := by
  intro l
  induction l with
  | nil => exact ⟨a, List.mem_singleton_self a, rfl⟩
  | cons b rest ih =>
      by_cases hb : (b.id == a.id) = true
      · rw [upsertList, if_pos hb]
        exact ⟨a, List.mem_cons_self _ _, rfl⟩
      · rw [upsertList, if_neg hb]
        obtain ⟨w, hw, hwj⟩ := ih
        exact ⟨w, List.mem_cons.mpr (Or.inr hw), hwj⟩

theorem map_ids_of_id_preserving {f : MacideAccount → MacideAccount}
    (hf : ∀ c, (f c).id = c.id) (l : List MacideAccount) :
    (l.map f).map (fun b => b.id) = l.map (fun b => b.id) := by
  rw [List.map_map]
  exact List.map_congr_left fun c _ => hf c

theorem stampMap_id (x c : MacideAccount) :
    (if c.id == x.id then x else c).id = c.id := by
  by_cases hc : (c.id == x.id) = true
  · rw [if_pos hc]
    exact (by simpa using hc : c.id = x.id).symm
  · rw [if_neg hc]

theorem demoteMap_id (pid : String) (c : MacideAccount) :
    (if c.id == pid then { c with status := AccountStatus.idle } else c).id = c.id := by
  by_cases hc : (c.id == pid) = true
  · rw [if_pos hc]
  · rw [if_neg hc]

theorem replaceFirstById_ids (a : MacideAccount) :
    ∀ l : List MacideAccount,
      (replaceFirstById a l).map (fun b => b.id) = l.map (fun b => b.id) := by
  intro l
  induction l with
  | nil => rfl
  | cons b rest ih =>
      by_cases hb : (b.id == a.id) = true
      · rw [replaceFirstById, if_pos hb]
        simp only [List.map_cons]
        rw [show a.id = b.id from (by simpa using hb : b.id = a.id).symm]
      · rw [replaceFirstById, if_neg hb]
        simp only [List.map_cons, ih]

theorem mem_replaceFirstById_of_ne {c a : MacideAccount} (hne : c.id ≠ a.id) :
    ∀ {l : List MacideAccount}, c ∈ l → c ∈ replaceFirstById a l := by
  intro l
  induction l with
  | nil =>
      intro h
      cases h
  | cons b rest ih =>
      intro h
      by_cases hb : (b.id == a.id) = true
      · rw [replaceFirstById, if_pos hb]
        rcases List.mem_cons.mp h with h | h
        · have : c.id = a.id := by rw [h]; simpa using hb
          exact absurd this hne
        · exact List.mem_cons.mpr (Or.inr h)
      · rw [replaceFirstById, if_neg hb]
        rcases List.mem_cons.mp h with h | h
        · exact List.mem_cons.mpr (Or.inl h)
        · exact List.mem_cons.mpr (Or.inr (ih h))

theorem exists_id_of_ids_eq {l1 l2 : List MacideAccount} {j : String}
    (hids : l1.map (fun b => b.id) = l2.map (fun b => b.id))
    (h : ∃ c ∈ l2, c.id = j) : ∃ c ∈ l1, c.id = j := by
  rcases h with ⟨c, hc, hcj⟩
  have hm : j ∈ l1.map (fun b => b.id) := by
    rw [hids]
    exact List.mem_map.mpr ⟨c, hc, hcj⟩
  rcases List.mem_map.mp hm with ⟨b, hb, hbj⟩
  exact ⟨b, hb, hbj⟩

theorem load_characterization (s : ManagerState) :
    (load s).accounts = s.vault ∧
    ((load s).activeId = s.activeId ∧ s.vault = [] ∨
      ∃ j, (load s).activeId = some j ∧ ∃ a ∈ s.vault, a.id = j) := by
  refine ⟨rfl, ?_⟩
  unfold load
  dsimp only
  cases hsid : s.storedActiveId with
  | some sid =>
      dsimp only
      by_cases hany : (s.vault.any fun a => a.id == sid) = true
      · right
        refine ⟨sid, by simp only [if_pos hany], ?_⟩
        rcases List.any_eq_true.mp hany with ⟨a, ha, hpa⟩
        exact ⟨a, ha, by simpa using hpa⟩
      · cases hhd : s.vault.head? with
        | some a =>
            right
            exact ⟨a.id, by simp only [if_neg hany],
              ⟨a, List.mem_of_mem_head? (Option.mem_def.mpr hhd), rfl⟩⟩
        | none =>
            left
            exact ⟨by simp only [if_neg hany], List.head?_eq_none_iff.mp hhd⟩
  | none =>
      dsimp only
      cases hhd : s.vault.head? with
      | some a =>
          right
          exact ⟨a.id, rfl, ⟨a, List.mem_of_mem_head? (Option.mem_def.mpr hhd), rfl⟩⟩
      | none =>
          left
          exact ⟨rfl, List.head?_eq_none_iff.mp hhd⟩

theorem inv_load {s : ManagerState}
    (h1 : activeRefsExisting s) (h2 : idsSubsetVault s) :
    activeRefsExisting (load s) ∧ idsSubsetVault (load s) := by
  obtain ⟨hacc, hcase⟩ := load_characterization s
  constructor
  · intro i hi
    rcases hcase with ⟨heq, hnil⟩ | ⟨j, hj, a, ha, haj⟩
    · rw [heq] at hi
      rcases h1 i hi with ⟨c, hc, _⟩
      rcases h2 c hc with ⟨v, hv, _⟩
      rw [hnil] at hv
      cases hv
    · rw [hj] at hi
      injection hi with hi
      subst hi
      exact ⟨a, by rw [hacc]; exact ha, haj⟩
  · intro a ha
    rw [hacc] at ha
    exact ⟨a, ha, rfl⟩

theorem setActive_ids (now : String) (a : MacideAccount) (s : ManagerState) :
    (setActive now a s).accounts.map (fun b => b.id) = s.accounts.map (fun b => b.id) := by
  have hstamp :=
    stampMap_id (⟨a.id, a.requestCount, a.requestCountDate, a.status, now⟩ : MacideAccount)
  unfold setActive
  cases getActive s with
  | none =>
      dsimp only
      exact map_ids_of_id_preserving hstamp s.accounts
  | some prev =>
      by_cases hp : (prev.id == a.id) = true
      · dsimp only
        rw [if_pos hp]
        exact map_ids_of_id_preserving hstamp s.accounts
      · dsimp only
        rw [if_neg hp]
        exact (map_ids_of_id_preserving hstamp _).trans
          (map_ids_of_id_preserving (demoteMap_id prev.id) s.accounts)

theorem setActive_vault_superset (now : String) (a : MacideAccount) (s : ManagerState)
    {j : String} (h : ∃ v ∈ s.vault, v.id = j) :
    ∃ v ∈ (setActive now a s).vault, v.id = j := by
  unfold setActive
  cases getActive s with
  | none =>
      dsimp only
      exact upsertList_exists_of_exists h
  | some prev =>
      by_cases hp : (prev.id == a.id) = true
      · dsimp only
        rw [if_pos hp]
        exact upsertList_exists_of_exists h
      · dsimp only
        rw [if_neg hp]
        exact upsertList_exists_of_exists (upsertList_exists_of_exists h)

theorem inv_setActive {now : String} {a : MacideAccount} {s : ManagerState}
    (hmem : a ∈ s.accounts) (h2 : idsSubsetVault s) :
    activeRefsExisting (setActive now a s) ∧ idsSubsetVault (setActive now a s) := by
  have hids := setActive_ids now a s
  constructor
  · intro i hi
    have hact : (setActive now a s).activeId = some a.id := rfl
    rw [hact] at hi
    injection hi with hi
    subst hi
    exact exists_id_of_ids_eq hids ⟨a, hmem, rfl⟩
  · intro c2 hc2
    have hold : ∃ c ∈ s.accounts, c.id = c2.id :=
      exists_id_of_ids_eq hids.symm ⟨c2, hc2, rfl⟩
    rcases hold with ⟨c, hc, hcc⟩
    rcases h2 c hc with ⟨v, hv, hvc⟩
    exact setActive_vault_superset now a s ⟨v, hv, by rw [hvc, hcc]⟩

theorem inv_add {a : MacideAccount} {s : ManagerState}
    (h1 : activeRefsExisting s) (h2 : idsSubsetVault s) :
    activeRefsExisting (addAccount a s) ∧ idsSubsetVault (addAccount a s) := by
  constructor
  · intro i hi
    have hi2 : s.activeId = some i := hi
    rcases h1 i hi2 with ⟨c, hc, hci⟩
    by_cases hca : c.id = a.id
    · exact ⟨a, List.mem_append_right _ (List.mem_singleton_self a),
        by rw [← hca]; exact hci⟩
    · refine ⟨c, List.mem_append_left _ ?_, hci⟩
      rw [List.mem_filter]
      exact ⟨hc, by simpa using hca⟩
  · intro c hc
    rcases List.mem_append.mp hc with hc | hc
    · have hc2 := (List.mem_filter.mp hc).1
      rcases h2 c hc2 with ⟨v, hv, hvc⟩
      exact upsertList_exists_of_exists ⟨v, hv, hvc⟩
    · have hca : c = a := List.mem_singleton.mp hc
      subst hca
      exact upsertList_exists_self c s.vault

theorem inv_remove {i0 : String} {s : ManagerState}
    (h1 : activeRefsExisting s) (h2 : idsSubsetVault s) :
    activeRefsExisting (removeAccountById i0 s) ∧ idsSubsetVault (removeAccountById i0 s) := by
  have hsub : ∀ c ∈ s.accounts.filter (fun b => b.id != i0),
      ∃ v ∈ s.vault.filter (fun b => b.id != i0), v.id = c.id := by
    intro c hc
    have hc1 := List.mem_filter.mp hc
    rcases h2 c hc1.1 with ⟨v, hv, hvc⟩
    refine ⟨v, ?_, hvc⟩
    rw [List.mem_filter]
    refine ⟨hv, ?_⟩
    rw [hvc]
    exact hc1.2
  unfold removeAccountById
  by_cases hact : s.activeId = some i0
  · rw [if_pos hact]
    constructor
    · intro i hi
      dsimp only at hi
      rcases Option.map_eq_some'.mp hi with ⟨hd, hhd, hid⟩
      subst hid
      exact ⟨hd, List.mem_of_mem_head? (Option.mem_def.mpr hhd), rfl⟩
    · intro c hc
      exact hsub c hc
  · rw [if_neg hact]
    constructor
    · intro i hi
      dsimp only at hi
      rcases h1 i hi with ⟨c, hc, hci⟩
      refine ⟨c, ?_, hci⟩
      rw [List.mem_filter]
      refine ⟨hc, ?_⟩
      have hne : i ≠ i0 := fun h => hact (by rw [← h]; exact hi)
      rw [hci]
      simpa using hne
    · intro c hc
      exact hsub c hc

theorem inv_update {a : MacideAccount} {s : ManagerState}
    (h1 : activeRefsExisting s) (h2 : idsSubsetVault s) :
    activeRefsExisting (updateAccount a s) ∧ idsSubsetVault (updateAccount a s) := by
  have hids := replaceFirstById_ids a s.accounts
  constructor
  · intro i hi
    rcases h1 i hi with ⟨c, hc, hci⟩
    exact exists_id_of_ids_eq hids ⟨c, hc, hci⟩
  · intro c hc
    have hold : ∃ b ∈ s.accounts, b.id = c.id :=
      exists_id_of_ids_eq hids.symm ⟨c, hc, rfl⟩
    rcases hold with ⟨b, hb, hbc⟩
    rcases h2 b hb with ⟨v, hv, hvb⟩
    exact upsertList_exists_of_exists ⟨v, hv, by rw [hvb, hbc]⟩

theorem inv_saveAll {l : List MacideAccount} {s : ManagerState}
    (hwf : ∀ i, s.activeId = some i → ∃ b ∈ l, b.id = i) :
    activeRefsExisting (saveAll l s) ∧ idsSubsetVault (saveAll l s) := by
  constructor
  · intro i hi
    exact hwf i hi
  · intro c hc
    exact ⟨c, hc, rfl⟩

theorem inv_step {s : ManagerState} {op : RegOp} (hwf : wfOp s op)
    (h1 : activeRefsExisting s) (h2 : idsSubsetVault s) :
    activeRefsExisting (step op s) ∧ idsSubsetVault (step op s) := by
  cases op with
  | load => exact inv_load h1 h2
  | setActive now a => exact inv_setActive hwf h2
  | add a => exact inv_add h1 h2
  | remove i => exact inv_remove h1 h2
  | update a => exact inv_update h1 h2
  | saveAll l => exact inv_saveAll hwf

theorem reachableWF_inv {s : ManagerState} (h : ReachableWF s) :
    activeRefsExisting s ∧ idsSubsetVault s := by
  induction h with
  | init v sid =>
      constructor
      · intro i hi
        exact Option.noConfusion hi
      · intro a ha
        cases ha
  | step op hr hwf ih => exact inv_step hwf ih.1 ih.2

/-- C3 counterexample: a sequence of registry operations can leave the
active pointer dangling: calling `setActive` with an account that is not
stored (here, on a fresh empty registry) sets `_activeId` without the
account ever entering `_accounts`, so the pointer references no existing
credential. -/
theorem registry_active_dangling_cex :
    Reachable stateDangling ∧
    stateDangling.activeId = some "x" ∧
    stateDangling.accounts = [] ∧
    ¬ activeRefsExisting stateDangling := by
  refine ⟨Reachable.step (RegOp.setActive "t1" accForeign) (Reachable.init [] none),
    by decide, by decide, ?_⟩
  intro h
  rcases h "x" (by decide) with ⟨a, ha, _⟩
  have hacc : stateDangling.accounts = [] := by decide
  rw [hacc] at ha
  cases ha

/-- C3 (amended): for every registry state reachable by a sequence of
operations in which `setActive` is always invoked with an account object
held by the registry and `saveAll` with an array still containing the
active id (the discipline the repository's call sites follow), the
active-credential pointer, if set, references a credential present in the
registry's current credential list. -/
theorem registry_active_invariant {s : ManagerState} (h : ReachableWF s) :
    activeRefsExisting s :=
  (reachableWF_inv h).1

/-- Witness for the amended C3 theorem on a concrete wellformed run:
add an account, then activate it. -/
theorem registry_active_invariant_witness :
    activeRefsExisting
      (step (.setActive "t1" accFresh)
        (step (.add accFresh)
          { accounts := [], activeId := none, vault := [], storedActiveId := none })) :=
  registry_active_invariant
    (ReachableWF.step (RegOp.setActive "t1" accFresh)
      (ReachableWF.step (RegOp.add accFresh) (ReachableWF.init [] none) trivial)
      (List.mem_singleton_self accFresh))

/-! Lemmas for the throttle burst behaviour (C1). -/

theorem stamp_preserves_live {x c : MacideAccount} (hx : x.status ≠ .exhausted)
    (hc : c.status ≠ .exhausted) :
    (if c.id == x.id then x else c).id = c.id ∧
    (if c.id == x.id then x else c).status ≠ .exhausted := by
  by_cases h : (c.id == x.id) = true
  · rw [if_pos h]
    exact ⟨(by simpa using h : c.id = x.id).symm, hx⟩
  · rw [if_neg h]
    exact ⟨rfl, hc⟩

theorem demote_preserves_live {pid : String} {c : MacideAccount}
    (hc : c.status ≠ .exhausted) :
    (if c.id == pid then { c with status := AccountStatus.idle } else c).id = c.id ∧
    (if c.id == pid then { c with status := AccountStatus.idle } else c).status ≠ .exhausted := by
  by_cases h : (c.id == pid) = true
  · rw [if_pos h]
    exact ⟨rfl, fun hcon => AccountStatus.noConfusion hcon⟩
  · rw [if_neg h]
    exact ⟨rfl, hc⟩

theorem setActive_preserves_live {now : String} {next : MacideAccount} {s1 : ManagerState}
    (hnext : next.status ≠ .exhausted) {bid : String}
    (h : ∃ c ∈ s1.accounts, c.id = bid ∧ c.status ≠ .exhausted) :
    ∃ c ∈ (setActive now next s1).accounts, c.id = bid ∧ c.status ≠ .exhausted := by
  rcases h with ⟨c, hc, hcid, hcst⟩
  have hxlive : (⟨next.id, next.requestCount, next.requestCountDate, next.status, now⟩ :
      MacideAccount).status ≠ .exhausted := hnext
  unfold setActive
  cases getActive s1 with
  | none =>
      dsimp only
      obtain ⟨hid2, hst2⟩ :=
        @stamp_preserves_live ⟨next.id, next.requestCount, next.requestCountDate, next.status, now⟩
          c hxlive hcst
      exact ⟨_, List.mem_map_of_mem _ hc, hid2.trans hcid, hst2⟩
  | some prev =>
      by_cases hp : (prev.id == next.id) = true
      · dsimp only
        rw [if_pos hp]
        obtain ⟨hid2, hst2⟩ :=
          @stamp_preserves_live ⟨next.id, next.requestCount, next.requestCountDate, next.status, now⟩
            c hxlive hcst
        exact ⟨_, List.mem_map_of_mem _ hc, hid2.trans hcid, hst2⟩
      · dsimp only
        rw [if_neg hp]
        obtain ⟨hidd, hstd⟩ := @demote_preserves_live prev.id c hcst
        obtain ⟨hid2, hst2⟩ :=
          @stamp_preserves_live ⟨next.id, next.requestCount, next.requestCountDate, next.status, now⟩
            (if c.id == prev.id then { c with status := AccountStatus.idle } else c) hxlive hstd
        refine ⟨_, List.mem_map_of_mem _ (List.mem_map_of_mem _ hc), ?_, hst2⟩
        exact (hid2.trans hidd).trans hcid

theorem fireById_preserves_live {strat : RotationStrategy} {now i : String} {s : ManagerState}
    (hlive : ∃ b ∈ s.accounts, b.id ≠ i ∧ b.status ≠ .exhausted) :
    ∃ b ∈ (fireById strat now i s).1.accounts, b.id ≠ i ∧ b.status ≠ .exhausted := by
  unfold fireById
  cases hfind : s.accounts.find? (fun b => b.id == i) with
  | none => exact hlive
  | some a =>
      have haid : a.id = i := by simpa using List.find?_some hfind
      rcases hlive with ⟨b, hb, hbi, hbs⟩
      have hbmem : b ∈ replaceFirstById { a with status := AccountStatus.exhausted } s.accounts := by
        refine mem_replaceFirstById_of_ne ?_ hb
        intro hcon
        exact hbi (hcon.trans haid)
      unfold onRateLimitDetected
      dsimp only
      by_cases hman : strat = .manual
      · rw [if_pos hman]
        exact ⟨b, hbmem, hbi, hbs⟩
      · rw [if_neg hman]
        cases hsel : selectNext strat
            (updateAccount { a with status := AccountStatus.exhausted } s) with
        | none =>
            dsimp only
            exact ⟨b, hbmem, hbi, hbs⟩
        | some next =>
            dsimp only
            have hnext : next.status ≠ .exhausted := selectNext_status hsel
            have hin : ∃ c ∈ (updateAccount { a with status := AccountStatus.exhausted } s).accounts,
                c.id = b.id ∧ c.status ≠ .exhausted := ⟨b, hbmem, rfl, hbs⟩
            rcases setActive_preserves_live hnext hin with ⟨c, hcmem, hcid, hcst⟩
            exact ⟨c, hcmem, by rw [hcid]; exact hbi, hcst⟩

theorem fireById_ids (strat : RotationStrategy) (now i : String) (s : ManagerState) :
    (fireById strat now i s).1.accounts.map (fun b => b.id) =
      s.accounts.map (fun b => b.id) := by
  unfold fireById
  cases hfind : s.accounts.find? (fun b => b.id == i) with
  | none => rfl
  | some a =>
      unfold onRateLimitDetected
      dsimp only
      by_cases hman : strat = .manual
      · rw [if_pos hman]
        exact replaceFirstById_ids _ s.accounts
      · rw [if_neg hman]
        cases hsel : selectNext strat
            (updateAccount { a with status := AccountStatus.exhausted } s) with
        | none =>
            dsimp only
            exact replaceFirstById_ids _ s.accounts
        | some next =>
            dsimp only
            exact (setActive_ids now next _).trans (replaceFirstById_ids _ s.accounts)

theorem fireById_preserves_id {strat : RotationStrategy} {now i : String} {s : ManagerState}
    {j : String} (h : ∃ c ∈ s.accounts, c.id = j) :
    ∃ c ∈ (fireById strat now i s).1.accounts, c.id = j :=
  exists_id_of_ids_eq (fireById_ids strat now i s) h

theorem fireById_count {strat : RotationStrategy} {now i : String} {s : ManagerState}
    (hstrat : strat ≠ .manual)
    (hid : ∃ c ∈ s.accounts, c.id = i)
    (hlive : ∃ b ∈ s.accounts, b.id ≠ i ∧ b.status ≠ .exhausted) :
    (fireById strat now i s).2 = 1 := by
  rcases hid with ⟨c0, hc0, hc0i⟩
  have hsome : (s.accounts.find? (fun b => b.id == i)).isSome := by
    rw [List.find?_isSome]
    exact ⟨c0, hc0, by simp [hc0i]⟩
  rcases Option.isSome_iff_exists.mp hsome with ⟨a, hfind⟩
  have haid : a.id = i := by simpa using List.find?_some hfind
  rcases hlive with ⟨b, hb, hbi, hbs⟩
  have hbmem : b ∈ replaceFirstById { a with status := AccountStatus.exhausted } s.accounts := by
    refine mem_replaceFirstById_of_ne ?_ hb
    intro hcon
    exact hbi (hcon.trans haid)
  have havail : available (updateAccount { a with status := AccountStatus.exhausted } s) ≠ [] := by
    apply List.ne_nil_of_mem (a := b)
    rw [available, List.mem_filter]
    exact ⟨hbmem, by simpa using hbs⟩
  have hsel := selectNext_isSome hstrat havail
  unfold fireById
  rw [hfind]
  unfold onRateLimitDetected
  dsimp only
  rw [if_neg hstrat]
  cases hs : selectNext strat (updateAccount { a with status := AccountStatus.exhausted } s) with
  | none =>
      rw [hs] at hsel
      simp at hsel
  | some next => rfl

/-- C1 counterexample: with three healthy accounts `a`, `b`, `c` and `a`
active under round-robin, firing the throttle handler three times in
rapid succession on credential `a` results in three `setActive` calls,
not exactly one: the source has no reentrancy flag, so every invocation
runs a full rotation attempt. -/
theorem rotator_burst_cex :
    (fireThrice .roundRobin "t1" "a" stateABC).2 = 3 ∧
    (fireThrice .roundRobin "t1" "a" stateABC).2 ≠ 1 := by
  constructor
  · decide
  · decide

/-- C1 (amended): the throttle handler has no reentrancy flag, so rapid
signals do not collapse: under any non-manual strategy, as long as the
throttled credential is stored and some other stored credential is not
exhausted, every one of three rapid `onRateLimitDetected` invocations on
the same credential performs its own rotation, for a total of exactly
three `setActive` calls (one per invocation), not one. -/
theorem rotator_burst_three_rotations
    {strat : RotationStrategy} {now i : String} {s : ManagerState}
    (hstrat : strat ≠ .manual)
    (hid : ∃ a ∈ s.accounts, a.id = i)
    (hlive : ∃ b ∈ s.accounts, b.id ≠ i ∧ b.status ≠ .exhausted) :
    (fireThrice strat now i s).2 = 3 := by
  have c1 : (fireById strat now i s).2 = 1 := fireById_count hstrat hid hlive
  have hid1 : ∃ c ∈ (fireById strat now i s).1.accounts, c.id = i :=
    fireById_preserves_id hid
  have hlive1 : ∃ b ∈ (fireById strat now i s).1.accounts, b.id ≠ i ∧ b.status ≠ .exhausted :=
    fireById_preserves_live hlive
  have c2 : (fireById strat now i (fireById strat now i s).1).2 = 1 :=
    fireById_count hstrat hid1 hlive1
  have hid2 : ∃ c ∈ (fireById strat now i (fireById strat now i s).1).1.accounts, c.id = i :=
    fireById_preserves_id hid1
  have hlive2 : ∃ b ∈ (fireById strat now i (fireById strat now i s).1).1.accounts,
      b.id ≠ i ∧ b.status ≠ .exhausted :=
    fireById_preserves_live hlive1
  have c3 : (fireById strat now i (fireById strat now i (fireById strat now i s).1).1).2 = 1 :=
    fireById_count hstrat hid2 hlive2
  unfold fireThrice
  dsimp only
  rw [c1, c2, c3]

/-- Witness for the amended C1 theorem: three least-used firings on the
three-account registry perform three `setActive` calls. -/
theorem rotator_burst_three_rotations_witness :
    (fireThrice .leastUsed "t2" "a" stateABC).2 = 3 :=
  rotator_burst_three_rotations (by decide) (by decide) (by decide)

end Macide
